import Mathlib

/-!
# Verification of `livelocals` — a live read/write view of a frame's locals

Shallow embedding of `src/livelocals/__init__.py`.

The Python module exposes `LiveLocals`, a mapping-style facade over a
frame's fast, cell and free variables, plus a weak interning cache in
`livelocals()`.  We model:

* a frame as a record carrying its identity (`id(frame)`), its code
  object's three name segments (`co_varnames`, `co_cellvars`,
  `co_freevars`) and a unified slot array (`f_localsplus`), each slot
  holding `Option V` (`none` = unassigned);
* the per-slot primitives `frame_get_fast` / `frame_set_fast` /
  `frame_del_fast` and the cell counterparts, which live in the
  native `livelocals._frame` extension (not part of the Python
  source), modelled from the spec's external-interface section;
* `_frame_var` accessor triples: in Python each is three `partial`
  applications binding the same `(frame, index)` pair to one family
  of primitives.  We record the captured frame reference, the family
  (fast vs cell) and the index; the bound operations are recovered by
  `frame_var.get_var` / `set_var` / `del_var`, which explicitly pass
  the current frame state;
* the `LiveLocals` facade operations in state-passing style: an
  operation that mutates the frame returns the new frame, and
  Python's `KeyError` / `NameError` become
  `Err.NotDeclared` / `Err.Undefined`;
* the interning cache `_cache` of `livelocals()` over an explicit
  address-allocating state, so that Python object identity of views
  becomes equality of addresses.
-/

/-- Error outcomes of the facade: Python's `KeyError` (name not among
the frame's declared variables) and `NameError` (declared but
currently unassigned). -/
inductive Err : Type
  | NotDeclared : Err
  | Undefined : Err
  deriving DecidableEq, Repr

deriving instance DecidableEq for Except

/-- Which family of slot primitives an accessor is bound to:
`_create_fast_var` binds the `*_fast` primitives, `_create_cell_var`
binds the `*_cell` primitives (used for both cell and free vars). -/
inductive Category : Type
  | Fast : Category
  | Cell : Category
  deriving DecidableEq, Repr

/-- The parts of a code object read by `LiveLocals.__init__`: the
three declared-name segments. -/
structure Code where
  co_varnames : List String
  co_cellvars : List String
  co_freevars : List String
  deriving DecidableEq, Repr

/-- A frame: its identity (`id(frame)`), its code object, and the
unified local-variable storage array (fast slots first, then cell
slots, then free slots), each slot possibly unassigned. -/
structure Frame (V : Type) where
  frame_id : Nat
  f_code : Code
  slots : List (Option V)
  deriving DecidableEq, Repr

/-- A frame is well formed when its storage array has exactly one slot
per declared name, in the unified-array layout. -/
def Frame.wf {V : Type} (f : Frame V) : Prop :=
  f.slots.length =
    f.f_code.co_varnames.length + f.f_code.co_cellvars.length +
      f.f_code.co_freevars.length

/-- Modelled from the spec: `get_fast(frame, index) → value`, fails
`Undefined` if unset.  Provided by the native `livelocals._frame`
extension, which is not part of the Python source tree. -/
def frame_get_fast {V : Type} (frame : Frame V) (index : Nat) : Except Err V :=
  match frame.slots.getD index none with
  | some v => Except.ok v
  | none => Except.error Err.Undefined

/-- Modelled from the spec: `set_fast(frame, index, value) → ()`,
always succeeds on a declared slot. -/
def frame_set_fast {V : Type} (frame : Frame V) (index : Nat) (value : V) :
    Frame V :=
  ⟨frame.frame_id, frame.f_code, frame.slots.set index (some value)⟩

/-- Modelled from the spec: `clear_fast(frame, index) → ()`, always
succeeds; a subsequent get fails until the next set. -/
def frame_del_fast {V : Type} (frame : Frame V) (index : Nat) : Frame V :=
  ⟨frame.frame_id, frame.f_code, frame.slots.set index none⟩

/-- Modelled from the spec: `get_cell(frame, index) → value`, fails
`Undefined` if the cell holds no value.  Under the unified-array
convention the cell index addresses the same storage array. -/
def frame_get_cell {V : Type} (frame : Frame V) (index : Nat) : Except Err V :=
  match frame.slots.getD index none with
  | some v => Except.ok v
  | none => Except.error Err.Undefined

/-- Modelled from the spec: `set_cell(frame, index, value) → ()`. -/
def frame_set_cell {V : Type} (frame : Frame V) (index : Nat) (value : V) :
    Frame V :=
  ⟨frame.frame_id, frame.f_code, frame.slots.set index (some value)⟩

/-- Modelled from the spec: `clear_cell(frame, index) → ()`. -/
def frame_del_cell {V : Type} (frame : Frame V) (index : Nat) : Frame V :=
  ⟨frame.frame_id, frame.f_code, frame.slots.set index none⟩

/-- The `_frame_var` namedtuple.  In Python it holds three `partial`
objects; each partial captures the frame object (a strong reference)
and the slot index, and binds one primitive of one family.  We record
exactly that captured data: the frame reference (by its identity),
the family, and the index. -/
structure frame_var where
  frame_ref : Nat
  category : Category
  index : Nat
  deriving DecidableEq, Repr

/-- The `get_var` partial applied to the current frame state. -/
def frame_var.get_var {V : Type} (fv : frame_var) (frame : Frame V) :
    Except Err V :=
  match fv.category with
  | Category.Fast => frame_get_fast frame fv.index
  | Category.Cell => frame_get_cell frame fv.index

/-- The `set_var` partial applied to the current frame state. -/
def frame_var.set_var {V : Type} (fv : frame_var) (frame : Frame V)
    (value : V) : Frame V :=
  match fv.category with
  | Category.Fast => frame_set_fast frame fv.index value
  | Category.Cell => frame_set_cell frame fv.index value

/-- The `del_var` partial applied to the current frame state. -/
def frame_var.del_var {V : Type} (fv : frame_var) (frame : Frame V) :
    Frame V :=
  match fv.category with
  | Category.Fast => frame_del_fast frame fv.index
  | Category.Cell => frame_del_cell frame fv.index

/-- `_create_fast_var(frame, index)`: three partials over the fast
primitives, each capturing `frame` and `index`. -/
def _create_fast_var {V : Type} (frame : Frame V) (index : Nat) : frame_var :=
  ⟨frame.frame_id, Category.Fast, index⟩

/-- `_create_cell_var(frame, index)`: three partials over the cell
primitives, each capturing `frame` and `index`. -/
def _create_cell_var {V : Type} (frame : Frame V) (index : Nat) : frame_var :=
  ⟨frame.frame_id, Category.Cell, index⟩

/-- Python's `enumerate(names, start)` as a list of index/name pairs. -/
def enumerate (names : List String) (start : Nat) : List (Nat × String) :=
  match names with
  | [] => []
  | n :: rest => (start, n) :: enumerate rest (start + 1)

/-- Python dict assignment `vars[name] = fv`: replace in place when
the key is present, otherwise append. -/
def insertVar (vars : List (String × frame_var)) (name : String)
    (fv : frame_var) : List (String × frame_var) :=
  if vars.any (fun p => p.1 == name) then
    vars.map (fun p => if p.1 = name then (name, fv) else p)
  else
    vars ++ [(name, fv)]

/-- One of the three `for i, name in enumerate(...)` loops of
`LiveLocals.__init__`: assign `vars[name] = mkv(i)` for each pair,
threading the loop variable `i` (as in Python, `i` keeps its previous
value when the loop body never runs). -/
def varLoop (mkv : Nat → frame_var) (pairs : List (Nat × String))
    (st : List (String × frame_var) × Int) :
    List (String × frame_var) × Int :=
  pairs.foldl (fun st p => (insertVar st.1 p.2 (mkv p.1), (p.1 : Int))) st

/-- State after the first loop of `LiveLocals.__init__`: `i = -1`,
then `for i, name in enumerate(code.co_varnames): vars[name] =
_create_fast_var(frame, i)`. -/
def fastSt {V : Type} (frame : Frame V) : List (String × frame_var) × Int :=
  varLoop (_create_fast_var frame) (enumerate frame.f_code.co_varnames 0)
    ([], -1)

/-- State after the second loop: `for i, name in
enumerate(code.co_cellvars, i + 1): vars[name] =
_create_cell_var(frame, i)`. -/
def cellSt {V : Type} (frame : Frame V) : List (String × frame_var) × Int :=
  varLoop (_create_cell_var frame)
    (enumerate frame.f_code.co_cellvars ((fastSt frame).2 + 1).toNat)
    (fastSt frame)

/-- State after the third loop: `for i, name in
enumerate(code.co_freevars, i + 1): vars[name] =
_create_cell_var(frame, i)`. -/
def freeSt {V : Type} (frame : Frame V) : List (String × frame_var) × Int :=
  varLoop (_create_cell_var frame)
    (enumerate frame.f_code.co_freevars ((cellSt frame).2 + 1).toNat)
    (cellSt frame)

/-- The `self._vars` dict built by `LiveLocals.__init__`: the result
of the three loops. -/
def buildVars {V : Type} (frame : Frame V) : List (String × frame_var) :=
  (freeSt frame).1

/-- The `LiveLocals` object: the stored frame identity and the
name → accessor dict (as an ordered association list with unique
keys, like a Python dict). -/
structure LiveLocals where
  _frame_id : Nat
  _vars : List (String × frame_var)
  deriving DecidableEq, Repr

/-- `LiveLocals.__init__`. -/
def LiveLocals.init {V : Type} (frame : Frame V) : LiveLocals :=
  ⟨frame.frame_id, buildVars frame⟩

/-- Python dict lookup `vars[key]` as an `Option`. -/
def dictGet (vars : List (String × frame_var)) (key : String) :
    Option frame_var :=
  (vars.find? (fun p => p.1 == key)).map (fun p => p.2)

/-- `LiveLocals.__getitem__`: `self._vars[key].get_var()`.  A missing
key raises `KeyError` (`NotDeclared`); an unassigned slot raises
`NameError` (`Undefined`). -/
def LiveLocals.getitem {V : Type} (self : LiveLocals) (frame : Frame V)
    (key : String) : Except Err V :=
  match dictGet self._vars key with
  | none => Except.error Err.NotDeclared
  | some fv => fv.get_var frame

/-- `LiveLocals.__setitem__`: `self._vars[key].set_var(value)`. -/
def LiveLocals.setitem {V : Type} (self : LiveLocals) (frame : Frame V)
    (key : String) (value : V) : Except Err (Frame V) :=
  match dictGet self._vars key with
  | none => Except.error Err.NotDeclared
  | some fv => Except.ok (fv.set_var frame value)

/-- `LiveLocals.__delitem__`: `self._vars[key].del_var()`. -/
def LiveLocals.delitem {V : Type} (self : LiveLocals) (frame : Frame V)
    (key : String) : Except Err (Frame V) :=
  match dictGet self._vars key with
  | none => Except.error Err.NotDeclared
  | some fv => Except.ok (fv.del_var frame)

/-- `LiveLocals.__contains__`: `key in self._vars`. -/
def LiveLocals.contains (self : LiveLocals) (key : String) : Bool :=
  self._vars.any (fun p => p.1 == key)

/-- `LiveLocals.items` (Python 3 mode): yield `(key, var.get_var())`
for each entry, skipping entries whose `get_var` raises `NameError`. -/
def LiveLocals.items {V : Type} (self : LiveLocals) (frame : Frame V) :
    List (String × V) :=
  self._vars.filterMap (fun p =>
    match (p.2).get_var frame with
    | Except.ok v => some (p.1, v)
    | Except.error _ => none)

/-- `LiveLocals.keys`: `map(lambda r: r[0], self.items())`. -/
def LiveLocals.keys {V : Type} (self : LiveLocals) (frame : Frame V) :
    List String :=
  (self.items frame).map (fun r => r.1)

/-- `LiveLocals.values`: `map(lambda r: r[1], self.items())`. -/
def LiveLocals.values {V : Type} (self : LiveLocals) (frame : Frame V) :
    List V :=
  (self.items frame).map (fun r => r.2)

/-- `LiveLocals.get`: return `self._vars[key].get_var()`, with both
`KeyError` and `NameError` absorbed into the default. -/
def LiveLocals.get {V : Type} (self : LiveLocals) (frame : Frame V)
    (key : String) (default : V) : V :=
  match dictGet self._vars key with
  | none => default
  | some fv =>
    match fv.get_var frame with
    | Except.ok v => v
    | Except.error _ => default

/-- `LiveLocals.update`: for each `(key, val)` of the mapping, when
`key in vars`, perform `vars[key].set_var(val)`; other keys are
ignored.  The mapping is its `items()` sequence. -/
def LiveLocals.update {V : Type} (self : LiveLocals) (frame : Frame V)
    (mapping : List (String × V)) : Frame V :=
  mapping.foldl (fun fr kv =>
    match dictGet self._vars kv.1 with
    | some fv => fv.set_var fr kv.2
    | none => fr) frame

/-- `LiveLocals.setdefault`: return `self._vars[key].get_var()`; on
`KeyError` return the default (no write); on `NameError` perform
`self._vars[key].set_var(default)` and return the default.  Returns
the result paired with the (possibly updated) frame. -/
def LiveLocals.setdefault {V : Type} (self : LiveLocals) (frame : Frame V)
    (key : String) (default : V) : V × Frame V :=
  match dictGet self._vars key with
  | none => (default, frame)
  | some fv =>
    match fv.get_var frame with
    | Except.ok v => (v, frame)
    | Except.error _ => (default, fv.set_var frame default)

/-- A name is declared in a frame's code when it occurs in one of the
three segments. -/
def Code.declared (code : Code) (key : String) : Prop :=
  key ∈ code.co_varnames ∨ key ∈ code.co_cellvars ∨ key ∈ code.co_freevars

instance (code : Code) (key : String) : Decidable (code.declared key) := by
  unfold Code.declared
  infer_instance

/-- State of the module-level `_cache = WeakValueDictionary()` plus an
address allocator modelling Python object identity.  `entries` maps a
frame id to the address of its cached view; `views` is the heap of
view objects; `nextAddr` is the next fresh address.  We model the
regime in which every returned view is still strongly held by some
caller, so no weak entry has been reclaimed. -/
structure CacheSt where
  entries : List (Nat × Nat)
  views : List (Nat × LiveLocals)
  nextAddr : Nat
  deriving DecidableEq, Repr

/-- `_cache.get(frame, None)`, keyed by frame identity. -/
def cacheLookup (entries : List (Nat × Nat)) (fid : Nat) : Option Nat :=
  (entries.find? (fun p => p.1 == fid)).map (fun p => p.2)

/-- The `livelocals(frame)` entry point under the default interned
policy: look the frame up in `_cache`; on a hit return the cached
view, otherwise construct `LiveLocals(frame)` at a fresh address,
store it, and return it. -/
def livelocals {V : Type} (frame : Frame V) (st : CacheSt) : Nat × CacheSt :=
  match cacheLookup st.entries frame.frame_id with
  | some addr => (addr, st)
  | none =>
    (st.nextAddr,
      ⟨st.entries ++ [(frame.frame_id, st.nextAddr)],
        st.views ++ [(st.nextAddr, LiveLocals.init frame)],
        st.nextAddr + 1⟩)

/-- The empty initial cache state. -/
def cacheInit : CacheSt := ⟨[], [], 0⟩

/-- The frame references strongly held by a view through its accessor
partials: one per dict entry (each `_frame_var` holds three partials
all capturing the same frame object). -/
def LiveLocals.strongFrameRefs (self : LiveLocals) : List Nat :=
  self._vars.map (fun p => (p.2).frame_ref)

instance {V : Type} (f : Frame V) : Decidable f.wf := by
  unfold Frame.wf
  infer_instance

/-- A frame's declared names, with no duplicates across segments. -/
def Code.nodupNames (code : Code) : Prop :=
  (code.co_varnames ++ code.co_cellvars ++ code.co_freevars).Nodup

instance (code : Code) : Decidable code.nodupNames := by
  unfold Code.nodupNames
  infer_instance

/-- Invariant of the cache state: every cached address was allocated,
and distinct frames are cached at distinct addresses. -/
def CacheInv (st : CacheSt) : Prop :=
  (∀ p ∈ st.entries, p.2 < st.nextAddr) ∧
  (∀ p ∈ st.entries, ∀ q ∈ st.entries, p.2 = q.2 → p.1 = q.1)

instance (st : CacheSt) : Decidable (CacheInv st) := by
  unfold CacheInv
  infer_instance

/-- A concrete frame for concrete evaluations: identity 3, two fast
locals `a = 10` and `b` (unassigned), one cell var `c = 30`, one free
var `d` (unassigned). -/
def wFrame : Frame Nat := ⟨3, ⟨["a", "b"], ["c"], ["d"]⟩, [some 10, none, some 30, none]⟩

/-- A second concrete frame with a different identity. -/
def gFrame : Frame Nat := ⟨4, ⟨["x"], [], []⟩, [some 1]⟩

/-- A concrete frame with identity 5 and one declared fast local. -/
def cFrame9 : Frame Nat := ⟨5, ⟨["x"], [], []⟩, [some 1]⟩

/-! ## List helper lemmas -/

theorem list_getD_set_self {α : Type} (l : List α) (i : Nat) (a d : α)
    (h : i < l.length) : (l.set i a).getD i d = a := by
  show ((l.set i a).get? i).getD d = a
  rw [List.get?_set_eq_of_lt a h]
  rfl

theorem list_getD_set_ne {α : Type} (l : List α) (i j : Nat) (a d : α)
    (h : i ≠ j) : (l.set i a).getD j d = l.getD j d := by
  show ((l.set i a).get? j).getD d = (l.get? j).getD d
  rw [List.get?_set_ne a l h]

theorem list_isEmpty_iff_length {α : Type} (l : List α) :
    l.isEmpty = true ↔ l.length = 0 := by
  cases l <;> simp

/-! ## Slot accessor lemmas -/

theorem get_var_set_var_self {V : Type} (fv : frame_var) (f : Frame V) (v : V)
    (h : fv.index < f.slots.length) :
    fv.get_var (fv.set_var f v) = Except.ok v := by
  obtain ⟨r, c, i⟩ := fv
  have h2 : i < f.slots.length := h
  have key : (f.slots.set i (some v)).getD i none = some v :=
    list_getD_set_self _ _ _ _ h2
  cases c <;>
    (simp only [frame_var.get_var, frame_var.set_var, frame_get_fast,
      frame_set_fast, frame_get_cell, frame_set_cell]
     rw [key])

theorem get_var_del_var_self {V : Type} (fv : frame_var) (f : Frame V)
    (h : fv.index < f.slots.length) :
    fv.get_var (fv.del_var f) = Except.error Err.Undefined := by
  obtain ⟨r, c, i⟩ := fv
  have h2 : i < f.slots.length := h
  have key : (f.slots.set i (none : Option V)).getD i none = none :=
    list_getD_set_self _ _ _ _ h2
  cases c <;>
    (simp only [frame_var.get_var, frame_var.del_var, frame_get_fast,
      frame_del_fast, frame_get_cell, frame_del_cell]
     rw [key])

theorem get_var_set_var_ne {V : Type} (fv fw : frame_var) (f : Frame V) (v : V)
    (h : fv.index ≠ fw.index) : fv.get_var (fw.set_var f v) = fv.get_var f := by
  obtain ⟨r, c, i⟩ := fv
  obtain ⟨r2, c2, i2⟩ := fw
  have h2 : i2 ≠ i := fun he => h (by simpa using he.symm)
  have key : (f.slots.set i2 (some v)).getD i none = f.slots.getD i none :=
    list_getD_set_ne _ _ _ _ _ h2
  cases c <;> cases c2 <;>
    (simp only [frame_var.get_var, frame_var.set_var, frame_get_fast,
      frame_set_fast, frame_get_cell, frame_set_cell]
     rw [key])

theorem set_var_f_code {V : Type} (fv : frame_var) (f : Frame V) (v : V) :
    (fv.set_var f v).f_code = f.f_code := by
  obtain ⟨r, c, i⟩ := fv
  cases c <;> rfl

theorem set_var_frame_id {V : Type} (fv : frame_var) (f : Frame V) (v : V) :
    (fv.set_var f v).frame_id = f.frame_id := by
  obtain ⟨r, c, i⟩ := fv
  cases c <;> rfl

theorem set_var_length {V : Type} (fv : frame_var) (f : Frame V) (v : V) :
    (fv.set_var f v).slots.length = f.slots.length := by
  obtain ⟨r, c, i⟩ := fv
  cases c <;>
    simp [frame_var.set_var, frame_set_fast, frame_set_cell, List.length_set]

theorem del_var_f_code {V : Type} (fv : frame_var) (f : Frame V) :
    (fv.del_var f).f_code = f.f_code := by
  obtain ⟨r, c, i⟩ := fv
  cases c <;> rfl

theorem del_var_length {V : Type} (fv : frame_var) (f : Frame V) :
    (fv.del_var f).slots.length = f.slots.length := by
  obtain ⟨r, c, i⟩ := fv
  cases c <;>
    simp [frame_var.del_var, frame_del_fast, frame_del_cell, List.length_set]

theorem get_var_eq_getD {V : Type} (fv : frame_var) (f : Frame V) :
    fv.get_var f =
      match f.slots.getD fv.index none with
      | some v => Except.ok v
      | none => Except.error Err.Undefined := by
  obtain ⟨r, c, i⟩ := fv
  cases c <;> rfl

/-! ## Dict (association list) lemmas -/

theorem dictGet_nil (key : String) : dictGet [] key = none := rfl

theorem dictGet_cons (p : String × frame_var) (vars : List (String × frame_var))
    (key : String) :
    dictGet (p :: vars) key = if p.1 = key then some p.2 else dictGet vars key := by
  by_cases h : p.1 = key
  · rw [if_pos h]
    unfold dictGet
    rw [List.find?_cons_of_pos]
    · rfl
    · simp [h]
  · rw [if_neg h]
    unfold dictGet
    rw [List.find?_cons_of_neg]
    simp [h]

theorem dictGet_mem {vars : List (String × frame_var)} {key : String}
    {fv : frame_var} (h : dictGet vars key = some fv) : (key, fv) ∈ vars := by
  induction vars with
  | nil => cases h
  | cons p rest ih =>
    rw [dictGet_cons] at h
    by_cases hp : p.1 = key
    · rw [if_pos hp] at h
      obtain ⟨a, b⟩ := p
      cases h
      simp only at hp
      subst hp
      exact List.mem_cons_self _ _
    · rw [if_neg hp] at h
      exact List.mem_cons_of_mem _ (ih h)

theorem dictGet_eq_none {vars : List (String × frame_var)} {key : String} :
    dictGet vars key = none ↔ key ∉ vars.map Prod.fst := by
  induction vars with
  | nil => simp [dictGet_nil]
  | cons p rest ih =>
    rw [dictGet_cons]
    by_cases h : p.1 = key
    · simp [h]
    · simp [h, ih, Ne.symm h]

theorem dictGet_unique {vars : List (String × frame_var)} {key : String}
    {fv1 fv2 : frame_var} (hnd : (vars.map Prod.fst).Nodup)
    (h1 : (key, fv1) ∈ vars) (h2 : dictGet vars key = some fv2) : fv1 = fv2 := by
  induction vars with
  | nil => cases h1
  | cons p rest ih =>
    rw [dictGet_cons] at h2
    have hnd2 : p.1 ∉ rest.map Prod.fst ∧ (rest.map Prod.fst).Nodup := by
      rw [List.map_cons] at hnd
      exact List.nodup_cons.1 hnd
    rcases List.mem_cons.1 h1 with he | hm
    · subst he
      simp only [if_pos rfl] at h2
      exact Option.some.inj h2
    · by_cases hp : p.1 = key
      · exfalso
        have hk : key ∈ rest.map Prod.fst :=
          List.mem_map.2 ⟨(key, fv1), hm, rfl⟩
        rw [← hp] at hk
        exact hnd2.1 hk
      · rw [if_neg hp] at h2
        exact ih hnd2.2 hm h2

theorem any_fst_eq_mem (vars : List (String × frame_var)) (name : String) :
    vars.any (fun p => p.1 == name) = true ↔ name ∈ vars.map Prod.fst := by
  rw [List.any_eq_true]
  constructor
  · rintro ⟨p, hp, he⟩
    exact List.mem_map.2 ⟨p, hp, by simpa using (beq_iff_eq.1 he)⟩
  · rintro h
    rcases List.mem_map.1 h with ⟨p, hp, he⟩
    exact ⟨p, hp, by simpa using he⟩

theorem dictGet_map_replace (vars : List (String × frame_var)) (name : String)
    (fv : frame_var) (key : String) :
    dictGet (vars.map (fun p => if p.1 = name then (name, fv) else p)) key =
      if key = name then
        (if vars.any (fun p => p.1 == name) then some fv else none)
      else dictGet vars key := by
  induction vars with
  | nil => by_cases h : key = name <;> simp [dictGet_nil, h]
  | cons p rest ih =>
    rw [List.map_cons, dictGet_cons, dictGet_cons, List.any_cons]
    by_cases hp : p.1 = name
    · have hb : (p.1 == name) = true := by simpa using hp
      by_cases hk : key = name
      · subst hk
        simp [hp, hb]
      · have hnk : ¬ name = key := fun he => hk he.symm
        have hpk : ¬ p.1 = key := fun he => hk (he ▸ hp)
        simp [hp, hk, hnk, hpk, ih]
    · have hb : (p.1 == name) = false := by simpa using hp
      by_cases hk : key = name
      · subst hk
        cases hr : rest.any (fun p => p.1 == key) <;> simp [hp, hb, ih, hr]
      · by_cases hpk : p.1 = key
        · simp [hp, hk, hpk]
        · simp [hp, hk, hpk, ih]

theorem dictGet_append_single (vars : List (String × frame_var)) (name : String)
    (fv : frame_var) (key : String) :
    dictGet (vars ++ [(name, fv)]) key =
      match dictGet vars key with
      | some x => some x
      | none => if key = name then some fv else none := by
  induction vars with
  | nil =>
    rw [List.nil_append, dictGet_nil, dictGet_cons, dictGet_nil]
    by_cases h : key = name
    · subst h
      simp
    · rw [if_neg (fun he => h (Eq.symm he))]
      simp [h]
  | cons p rest ih =>
    rw [List.cons_append, dictGet_cons, dictGet_cons]
    by_cases hp : p.1 = key
    · simp [hp]
    · simp [hp, ih]

theorem dictGet_insertVar (vars : List (String × frame_var)) (name : String)
    (fv : frame_var) (key : String) :
    dictGet (insertVar vars name fv) key =
      if key = name then some fv else dictGet vars key := by
  unfold insertVar
  by_cases hany : vars.any (fun p => p.1 == name) = true
  · rw [if_pos hany, dictGet_map_replace, hany]
    simp
  · rw [if_neg hany, dictGet_append_single]
    have hnone : dictGet vars name = none := by
      rw [dictGet_eq_none]
      intro hmem
      exact hany ((any_fst_eq_mem vars name).2 hmem)
    by_cases hk : key = name
    · subst hk
      rw [hnone]
    · cases hg : dictGet vars key with
      | none => simp [hk]
      | some x => simp [hk]

theorem insertVar_mem {vars : List (String × frame_var)} {name : String}
    {fv : frame_var} {q : String × frame_var} (h : q ∈ insertVar vars name fv) :
    q ∈ vars ∨ q = (name, fv) := by
  unfold insertVar at h
  by_cases hany : vars.any (fun p => p.1 == name) = true
  · rw [if_pos hany] at h
    rcases List.mem_map.1 h with ⟨p, hp, he⟩
    by_cases hpn : p.1 = name
    · right
      rw [← he]
      simp [hpn]
    · left
      rw [← he]
      simpa [hpn] using hp
  · rw [if_neg hany] at h
    rcases List.mem_append.1 h with h1 | h1
    · exact Or.inl h1
    · exact Or.inr (by simpa using h1)

theorem insertVar_keys_nodup {vars : List (String × frame_var)} (name : String)
    (fv : frame_var) (h : (vars.map Prod.fst).Nodup) :
    ((insertVar vars name fv).map Prod.fst).Nodup := by
  unfold insertVar
  by_cases hany : vars.any (fun p => p.1 == name) = true
  · rw [if_pos hany]
    have he : (vars.map (fun p => if p.1 = name then (name, fv) else p)).map
        Prod.fst = vars.map Prod.fst := by
      rw [List.map_map]
      apply List.map_congr_left
      intro p _
      by_cases hp : p.1 = name <;> simp [hp]
    rw [he]
    exact h
  · rw [if_neg hany, List.map_append]
    rw [List.nodup_append]
    refine ⟨h, by simp, ?_⟩
    intro a ha hb
    simp only [List.map_cons, List.map_nil, List.mem_singleton] at hb
    rw [hb] at ha
    exact hany ((any_fst_eq_mem vars name).2 ha)

/-! ## Enumerate lemmas -/

theorem enumerate_mem (names : List String) (start : Nat) (i : Nat)
    (n : String) :
    (i, n) ∈ enumerate names start ↔
      ∃ p, ∃ h : p < names.length, i = start + p ∧ n = names.get ⟨p, h⟩ := by
  induction names generalizing start with
  | nil => simp [enumerate]
  | cons x rest ih =>
    simp only [enumerate, List.mem_cons]
    constructor
    · rintro (he | hm)
      · rw [Prod.ext_iff] at he
        obtain ⟨h1, h2⟩ := he
        exact ⟨0, by simp, by omega, h2⟩
      · rcases (ih (start + 1)).1 hm with ⟨p, hp, hi, hn⟩
        refine ⟨p + 1, by simpa using Nat.succ_lt_succ hp, by omega, ?_⟩
        exact hn
    · rintro ⟨p, hp, hi, hn⟩
      cases p with
      | zero =>
        left
        rw [Prod.ext_iff]
        exact ⟨by omega, hn⟩
      | succ p =>
        right
        have hp2 : p < rest.length := by
          simp only [List.length_cons] at hp
          omega
        refine (ih (start + 1)).2 ⟨p, hp2, by omega, ?_⟩
        exact hn

/-! ## Loop lemmas -/

theorem varLoop_nil (mkv : Nat → frame_var)
    (st : List (String × frame_var) × Int) : varLoop mkv [] st = st := rfl

theorem varLoop_cons (mkv : Nat → frame_var) (pr : Nat × String)
    (pairs : List (Nat × String)) (st : List (String × frame_var) × Int) :
    varLoop mkv (pr :: pairs) st =
      varLoop mkv pairs (insertVar st.1 pr.2 (mkv pr.1), (pr.1 : Int)) := rfl

theorem enumerate_cons (x : String) (rest : List String) (start : Nat) :
    enumerate (x :: rest) start = (start, x) :: enumerate rest (start + 1) := rfl

theorem varLoop_fst_mem (mkv : Nat → frame_var) (pairs : List (Nat × String)) :
    ∀ (st : List (String × frame_var) × Int) (q : String × frame_var),
      q ∈ (varLoop mkv pairs st).1 →
        q ∈ st.1 ∨ ∃ pr ∈ pairs, q = (pr.2, mkv pr.1) := by
  induction pairs with
  | nil =>
    intro st q h
    exact Or.inl h
  | cons pr rest ih =>
    intro st q h
    rw [varLoop_cons] at h
    rcases ih _ q h with h1 | ⟨pr2, hm, he⟩
    · rcases insertVar_mem h1 with h2 | h2
      · exact Or.inl h2
      · exact Or.inr ⟨pr, List.mem_cons_self _ _, by simpa using h2⟩
    · exact Or.inr ⟨pr2, List.mem_cons_of_mem _ hm, he⟩

theorem varLoop_snd (mkv : Nat → frame_var) (names : List String) :
    ∀ (start : Nat) (st : List (String × frame_var) × Int),
      (varLoop mkv (enumerate names start) st).2 =
        if names.isEmpty then st.2 else (start : Int) + names.length - 1 := by
  induction names with
  | nil =>
    intro start st
    simp [enumerate, varLoop_nil]
  | cons x rest ih =>
    intro start st
    rw [enumerate_cons, varLoop_cons, ih]
    by_cases hr : rest.isEmpty
    · have : rest.length = 0 := (list_isEmpty_iff_length rest).1 hr
      simp only [hr, if_pos, List.isEmpty_cons, List.length_cons, this]
      simp
    · rw [if_neg hr]
      have : rest.length ≥ 1 := by
        rcases Nat.eq_zero_or_pos rest.length with h0 | h1
        · exact absurd ((list_isEmpty_iff_length rest).2 h0) hr
        · exact h1
      have hc : (x :: rest).isEmpty = false := by simp
      rw [hc]
      simp only [List.length_cons, if_neg]
      push_cast
      omega

theorem dictGet_varLoop_not_mem (mkv : Nat → frame_var) {names : List String}
    {key : String} (h : key ∉ names) :
    ∀ (start : Nat) (st : List (String × frame_var) × Int),
      dictGet (varLoop mkv (enumerate names start) st).1 key =
        dictGet st.1 key := by
  induction names with
  | nil =>
    intro start st
    rfl
  | cons x rest ih =>
    intro start st
    rw [enumerate_cons, varLoop_cons]
    have hx : key ≠ x := fun he => h (he ▸ List.mem_cons_self x rest)
    have hr : key ∉ rest := fun hm => h (List.mem_cons_of_mem x hm)
    rw [ih hr]
    rw [dictGet_insertVar]
    simp [hx]

theorem dictGet_varLoop_get (mkv : Nat → frame_var) {names : List String}
    (hnd : names.Nodup) :
    ∀ (start : Nat) (st : List (String × frame_var) × Int) (p : Nat)
      (h : p < names.length),
      dictGet (varLoop mkv (enumerate names start) st).1 (names.get ⟨p, h⟩) =
        some (mkv (start + p)) := by
  induction names with
  | nil =>
    intro start st p h
    simp at h
  | cons x rest ih =>
    intro start st p h
    rw [enumerate_cons, varLoop_cons]
    cases p with
    | zero =>
      have hx : x ∉ rest := (List.nodup_cons.1 hnd).1
      have hget : (x :: rest).get ⟨0, h⟩ = x := rfl
      rw [hget, dictGet_varLoop_not_mem mkv hx, dictGet_insertVar]
      simp
    | succ p =>
      have h2 : p < rest.length := by
        simp only [List.length_cons] at h
        omega
      have hget : (x :: rest).get ⟨p + 1, h⟩ = rest.get ⟨p, h2⟩ := rfl
      have harg : start + 1 + p = start + (p + 1) := by omega
      rw [hget, ih (List.nodup_cons.1 hnd).2 (start + 1) _ p h2, harg]

theorem dictGet_varLoop_isSome_of_isSome (mkv : Nat → frame_var)
    (pairs : List (Nat × String)) :
    ∀ (st : List (String × frame_var) × Int) (key : String),
      (dictGet st.1 key).isSome →
        (dictGet (varLoop mkv pairs st).1 key).isSome := by
  induction pairs with
  | nil =>
    intro st key h
    exact h
  | cons pr rest ih =>
    intro st key h
    rw [varLoop_cons]
    apply ih
    rw [dictGet_insertVar]
    by_cases hk : key = pr.2
    · simp [hk]
    · simpa [hk] using h

theorem dictGet_varLoop_isSome_of_mem (mkv : Nat → frame_var)
    {names : List String} {key : String} (h : key ∈ names) :
    ∀ (start : Nat) (st : List (String × frame_var) × Int),
      (dictGet (varLoop mkv (enumerate names start) st).1 key).isSome := by
  induction names with
  | nil =>
    intro start st
    cases h
  | cons x rest ih =>
    intro start st
    rw [enumerate_cons, varLoop_cons]
    rcases List.mem_cons.1 h with he | hm
    · apply dictGet_varLoop_isSome_of_isSome
      rw [dictGet_insertVar]
      simp [he]
    · exact ih hm (start + 1) _

theorem varLoop_keys_nodup (mkv : Nat → frame_var)
    (pairs : List (Nat × String)) :
    ∀ (st : List (String × frame_var) × Int),
      (st.1.map Prod.fst).Nodup → ((varLoop mkv pairs st).1.map Prod.fst).Nodup := by
  induction pairs with
  | nil =>
    intro st h
    exact h
  | cons pr rest ih =>
    intro st h
    rw [varLoop_cons]
    exact ih _ (insertVar_keys_nodup _ _ h)

/-! ## Construction characterization -/

theorem fastSt_snd {V : Type} (f : Frame V) :
    ((fastSt f).2 + 1).toNat = f.f_code.co_varnames.length := by
  unfold fastSt
  rw [varLoop_snd]
  by_cases h : f.f_code.co_varnames.isEmpty
  · rw [if_pos h]
    have h0 := (list_isEmpty_iff_length _).1 h
    omega
  · rw [if_neg h]
    have h1 : f.f_code.co_varnames.length ≠ 0 := fun h0 =>
      h ((list_isEmpty_iff_length _).2 h0)
    omega

theorem cellSt_eq {V : Type} (f : Frame V) :
    cellSt f = varLoop (_create_cell_var f)
      (enumerate f.f_code.co_cellvars f.f_code.co_varnames.length)
      (fastSt f) := by
  unfold cellSt
  rw [fastSt_snd]

theorem cellSt_snd {V : Type} (f : Frame V) :
    ((cellSt f).2 + 1).toNat =
      f.f_code.co_varnames.length + f.f_code.co_cellvars.length := by
  rw [cellSt_eq, varLoop_snd]
  by_cases h : f.f_code.co_cellvars.isEmpty
  · rw [if_pos h]
    have h0 := (list_isEmpty_iff_length _).1 h
    have h1 := fastSt_snd f
    omega
  · rw [if_neg h]
    have h1 : f.f_code.co_cellvars.length ≠ 0 := fun h0 =>
      h ((list_isEmpty_iff_length _).2 h0)
    omega

theorem freeSt_eq {V : Type} (f : Frame V) :
    freeSt f = varLoop (_create_cell_var f)
      (enumerate f.f_code.co_freevars
        (f.f_code.co_varnames.length + f.f_code.co_cellvars.length))
      (cellSt f) := by
  unfold freeSt
  rw [cellSt_snd]

/-- Every entry of the constructed dict comes from one of the three
segments, with the unified-array index. -/
theorem mem_buildVars {V : Type} (f : Frame V) (k : String) (fv : frame_var)
    (h : (k, fv) ∈ buildVars f) :
    (∃ p, ∃ hp : p < f.f_code.co_varnames.length,
      k = f.f_code.co_varnames.get ⟨p, hp⟩ ∧
      fv = ⟨f.frame_id, Category.Fast, p⟩) ∨
    (∃ p, ∃ hp : p < f.f_code.co_cellvars.length,
      k = f.f_code.co_cellvars.get ⟨p, hp⟩ ∧
      fv = ⟨f.frame_id, Category.Cell, f.f_code.co_varnames.length + p⟩) ∨
    (∃ p, ∃ hp : p < f.f_code.co_freevars.length,
      k = f.f_code.co_freevars.get ⟨p, hp⟩ ∧
      fv = ⟨f.frame_id, Category.Cell,
        f.f_code.co_varnames.length + f.f_code.co_cellvars.length + p⟩) := by
  unfold buildVars at h
  rw [freeSt_eq] at h
  rcases varLoop_fst_mem _ _ _ _ h with h1 | ⟨pr, hpr, he⟩
  · rw [cellSt_eq] at h1
    rcases varLoop_fst_mem _ _ _ _ h1 with h2 | ⟨pr, hpr, he⟩
    · unfold fastSt at h2
      rcases varLoop_fst_mem _ _ _ _ h2 with h3 | ⟨pr, hpr, he⟩
      · cases h3
      · left
        obtain ⟨i, nm⟩ := pr
        rcases (enumerate_mem _ _ _ _).1 hpr with ⟨p, hp, hi, hn⟩
        simp only [Prod.mk.injEq] at he
        refine ⟨p, hp, ?_, ?_⟩
        · rw [he.1, hn]
        · rw [he.2]
          unfold _create_fast_var
          rw [hi]
          simp
    · right
      left
      obtain ⟨i, nm⟩ := pr
      rcases (enumerate_mem _ _ _ _).1 hpr with ⟨p, hp, hi, hn⟩
      simp only [Prod.mk.injEq] at he
      refine ⟨p, hp, ?_, ?_⟩
      · rw [he.1, hn]
      · rw [he.2]
        unfold _create_cell_var
        rw [hi]
  · right
    right
    obtain ⟨i, nm⟩ := pr
    rcases (enumerate_mem _ _ _ _).1 hpr with ⟨p, hp, hi, hn⟩
    simp only [Prod.mk.injEq] at he
    refine ⟨p, hp, ?_, ?_⟩
    · rw [he.1, hn]
    · rw [he.2]
      unfold _create_cell_var
      rw [hi]

theorem buildVars_frame_ref {V : Type} (f : Frame V) (k : String)
    (fv : frame_var) (h : (k, fv) ∈ buildVars f) :
    fv.frame_ref = f.frame_id := by
  rcases mem_buildVars f k fv h with ⟨p, hp, hk, he⟩ | ⟨p, hp, hk, he⟩ |
    ⟨p, hp, hk, he⟩ <;> rw [he]

theorem buildVars_index_lt {V : Type} (f : Frame V) (k : String)
    (fv : frame_var) (h : (k, fv) ∈ buildVars f) :
    fv.index < f.f_code.co_varnames.length + f.f_code.co_cellvars.length +
      f.f_code.co_freevars.length := by
  rcases mem_buildVars f k fv h with ⟨p, hp, hk, he⟩ | ⟨p, hp, hk, he⟩ |
    ⟨p, hp, hk, he⟩
  · subst he
    show p < _
    omega
  · subst he
    show _ + p < _
    omega
  · subst he
    show _ + _ + p < _
    omega

theorem dictGet_buildVars_index_lt {V : Type} (f : Frame V) {k : String}
    {fv : frame_var} (h : dictGet (buildVars f) k = some fv) :
    fv.index < f.f_code.co_varnames.length + f.f_code.co_cellvars.length +
      f.f_code.co_freevars.length :=
  buildVars_index_lt f k fv (dictGet_mem h)

/-- Distinct declared names are bound to distinct unified-array
indices. -/
theorem buildVars_index_inj {V : Type} (f : Frame V) {k1 k2 : String}
    {fv1 fv2 : frame_var} (h1 : dictGet (buildVars f) k1 = some fv1)
    (h2 : dictGet (buildVars f) k2 = some fv2)
    (he : fv1.index = fv2.index) : k1 = k2 := by
  rcases mem_buildVars f k1 fv1 (dictGet_mem h1) with ⟨p1, hp1, hk1, hf1⟩ |
    ⟨p1, hp1, hk1, hf1⟩ | ⟨p1, hp1, hk1, hf1⟩ <;>
  rcases mem_buildVars f k2 fv2 (dictGet_mem h2) with ⟨p2, hp2, hk2, hf2⟩ |
    ⟨p2, hp2, hk2, hf2⟩ | ⟨p2, hp2, hk2, hf2⟩ <;>
  subst hf1 <;> subst hf2 <;> simp only [frame_var.index] at he <;>
  first
    | (have hpp : p1 = p2 := by omega
       subst hpp
       exact hk1.trans hk2.symm)
    | (exfalso
       omega)

theorem dictGet_buildVars_isSome {V : Type} (f : Frame V) {k : String}
    (hd : f.f_code.declared k) : (dictGet (buildVars f) k).isSome := by
  unfold buildVars
  rw [freeSt_eq]
  rcases hd with hv | hc | hf
  · apply dictGet_varLoop_isSome_of_isSome
    rw [cellSt_eq]
    apply dictGet_varLoop_isSome_of_isSome
    unfold fastSt
    exact dictGet_varLoop_isSome_of_mem _ hv 0 _
  · apply dictGet_varLoop_isSome_of_isSome
    rw [cellSt_eq]
    exact dictGet_varLoop_isSome_of_mem _ hc _ _
  · exact dictGet_varLoop_isSome_of_mem _ hf _ _

theorem dictGet_buildVars_none {V : Type} (f : Frame V) {k : String}
    (hd : ¬ f.f_code.declared k) : dictGet (buildVars f) k = none := by
  have hv : k ∉ f.f_code.co_varnames := fun h => hd (Or.inl h)
  have hc : k ∉ f.f_code.co_cellvars := fun h => hd (Or.inr (Or.inl h))
  have hf : k ∉ f.f_code.co_freevars := fun h => hd (Or.inr (Or.inr h))
  unfold buildVars
  rw [freeSt_eq, dictGet_varLoop_not_mem _ hf, cellSt_eq,
    dictGet_varLoop_not_mem _ hc]
  unfold fastSt
  rw [dictGet_varLoop_not_mem _ hv]
  rfl

theorem buildVars_keys_nodup {V : Type} (f : Frame V) :
    ((buildVars f).map Prod.fst).Nodup := by
  unfold buildVars freeSt cellSt fastSt
  apply varLoop_keys_nodup
  apply varLoop_keys_nodup
  apply varLoop_keys_nodup
  simp

theorem dictGet_buildVars_fast {V : Type} (f : Frame V)
    (hnd : f.f_code.nodupNames) (p : Nat)
    (hp : p < f.f_code.co_varnames.length) :
    dictGet (buildVars f) (f.f_code.co_varnames.get ⟨p, hp⟩) =
      some ⟨f.frame_id, Category.Fast, p⟩ := by
  unfold Code.nodupNames at hnd
  rw [List.nodup_append] at hnd
  obtain ⟨hab, hcn, habc⟩ := hnd
  rw [List.nodup_append] at hab
  obtain ⟨han, hbn, hdab⟩ := hab
  have hmem : f.f_code.co_varnames.get ⟨p, hp⟩ ∈ f.f_code.co_varnames :=
    List.get_mem _ _ _
  have knc : f.f_code.co_varnames.get ⟨p, hp⟩ ∉ f.f_code.co_cellvars :=
    fun h => hdab hmem h
  have knf : f.f_code.co_varnames.get ⟨p, hp⟩ ∉ f.f_code.co_freevars :=
    fun h => habc (List.mem_append_left _ hmem) h
  unfold buildVars
  rw [freeSt_eq, dictGet_varLoop_not_mem _ knf, cellSt_eq,
    dictGet_varLoop_not_mem _ knc]
  unfold fastSt
  have hg := dictGet_varLoop_get (_create_fast_var f) han 0 ([], -1) p hp
  simpa [_create_fast_var] using hg

theorem dictGet_buildVars_cell {V : Type} (f : Frame V)
    (hnd : f.f_code.nodupNames) (p : Nat)
    (hp : p < f.f_code.co_cellvars.length) :
    dictGet (buildVars f) (f.f_code.co_cellvars.get ⟨p, hp⟩) =
      some ⟨f.frame_id, Category.Cell, f.f_code.co_varnames.length + p⟩ := by
  unfold Code.nodupNames at hnd
  rw [List.nodup_append] at hnd
  obtain ⟨hab, hcn, habc⟩ := hnd
  rw [List.nodup_append] at hab
  obtain ⟨han, hbn, hdab⟩ := hab
  have hmem : f.f_code.co_cellvars.get ⟨p, hp⟩ ∈ f.f_code.co_cellvars :=
    List.get_mem _ _ _
  have knf : f.f_code.co_cellvars.get ⟨p, hp⟩ ∉ f.f_code.co_freevars :=
    fun h => habc (List.mem_append_right _ hmem) h
  unfold buildVars
  rw [freeSt_eq, dictGet_varLoop_not_mem _ knf, cellSt_eq]
  have hg := dictGet_varLoop_get (_create_cell_var f) hbn
    f.f_code.co_varnames.length (fastSt f) p hp
  simpa [_create_cell_var] using hg

theorem dictGet_buildVars_free {V : Type} (f : Frame V)
    (hnd : f.f_code.nodupNames) (p : Nat)
    (hp : p < f.f_code.co_freevars.length) :
    dictGet (buildVars f) (f.f_code.co_freevars.get ⟨p, hp⟩) =
      some ⟨f.frame_id, Category.Cell,
        f.f_code.co_varnames.length + f.f_code.co_cellvars.length + p⟩ := by
  unfold Code.nodupNames at hnd
  rw [List.nodup_append] at hnd
  obtain ⟨hab, hcn, habc⟩ := hnd
  unfold buildVars
  rw [freeSt_eq]
  have hg := dictGet_varLoop_get (_create_cell_var f) hcn
    (f.f_code.co_varnames.length + f.f_code.co_cellvars.length) (cellSt f) p hp
  simpa [_create_cell_var] using hg

/-! ## Facade helper lemmas -/

theorem init_vars {V : Type} (f : Frame V) :
    (LiveLocals.init f)._vars = buildVars f := rfl

theorem contains_eq_isSome (self : LiveLocals) (k : String) :
    self.contains k = (dictGet self._vars k).isSome := by
  unfold LiveLocals.contains
  by_cases h : self._vars.any (fun p => p.1 == k) = true
  · rw [h]
    cases hg : dictGet self._vars k with
    | none =>
      exfalso
      exact (dictGet_eq_none.1 hg) ((any_fst_eq_mem _ _).1 h)
    | some fv => rfl
  · have hb : self._vars.any (fun p => p.1 == k) = false :=
      Bool.eq_false_iff.2 h
    rw [hb]
    have hn : dictGet self._vars k = none :=
      dictGet_eq_none.2 (fun hm => h ((any_fst_eq_mem _ _).2 hm))
    rw [hn]
    rfl

theorem set_var_getD_self {V : Type} (fv : frame_var) (f : Frame V) (v : V)
    (h : fv.index < f.slots.length) :
    (fv.set_var f v).slots.getD fv.index none = some v := by
  obtain ⟨r, c, i⟩ := fv
  have h2 : i < f.slots.length := h
  cases c <;>
    exact list_getD_set_self _ _ _ _ h2

theorem set_var_getD_ne {V : Type} (fv : frame_var) (f : Frame V) (v : V)
    (i : Nat) (h : fv.index ≠ i) :
    (fv.set_var f v).slots.getD i none = f.slots.getD i none := by
  obtain ⟨r, c, j⟩ := fv
  have h2 : j ≠ i := h
  cases c <;>
    exact list_getD_set_ne _ _ _ _ _ h2

theorem get_var_congr {V : Type} (fv : frame_var) (f g : Frame V)
    (h : f.slots.getD fv.index none = g.slots.getD fv.index none) :
    fv.get_var f = fv.get_var g := by
  rw [get_var_eq_getD, get_var_eq_getD, h]

theorem update_cons {V : Type} (self : LiveLocals) (f : Frame V)
    (kv : String × V) (m : List (String × V)) :
    self.update f (kv :: m) =
      self.update
        (match dictGet self._vars kv.1 with
          | some fv => fv.set_var f kv.2
          | none => f) m := rfl

theorem update_f_code {V : Type} (self : LiveLocals) (m : List (String × V)) :
    ∀ f : Frame V, (self.update f m).f_code = f.f_code := by
  induction m with
  | nil =>
    intro f
    rfl
  | cons kv rest ih =>
    intro f
    rw [update_cons]
    cases hg : dictGet self._vars kv.1 with
    | none => exact ih f
    | some fv => rw [ih (fv.set_var f kv.2), set_var_f_code]

theorem update_length {V : Type} (self : LiveLocals) (m : List (String × V)) :
    ∀ f : Frame V, (self.update f m).slots.length = f.slots.length := by
  induction m with
  | nil =>
    intro f
    rfl
  | cons kv rest ih =>
    intro f
    rw [update_cons]
    cases hg : dictGet self._vars kv.1 with
    | none => exact ih f
    | some fv => rw [ih (fv.set_var f kv.2), set_var_length]

theorem update_getD_ne {V : Type} (self : LiveLocals) (m : List (String × V)) :
    ∀ (f : Frame V) (i : Nat),
      (∀ kv ∈ m, ∀ fv, dictGet self._vars kv.1 = some fv → fv.index ≠ i) →
      (self.update f m).slots.getD i none = f.slots.getD i none := by
  induction m with
  | nil =>
    intro f i h
    rfl
  | cons kv rest ih =>
    intro f i h
    rw [update_cons]
    cases hg : dictGet self._vars kv.1 with
    | none => exact ih f i (fun kv2 hm => h kv2 (List.mem_cons_of_mem _ hm))
    | some fv =>
      rw [ih (fv.set_var f kv.2) i
        (fun kv2 hm => h kv2 (List.mem_cons_of_mem _ hm))]
      exact set_var_getD_ne fv f kv.2 i
        (h kv (List.mem_cons_self _ _) fv hg)

/-! ## Cache lemmas -/

theorem cacheLookup_nil (fid : Nat) : cacheLookup [] fid = none := rfl

theorem cacheLookup_cons (p : Nat × Nat) (rest : List (Nat × Nat)) (fid : Nat) :
    cacheLookup (p :: rest) fid =
      if p.1 = fid then some p.2 else cacheLookup rest fid := by
  by_cases h : p.1 = fid
  · rw [if_pos h]
    unfold cacheLookup
    rw [List.find?_cons_of_pos]
    · rfl
    · simp [h]
  · rw [if_neg h]
    unfold cacheLookup
    rw [List.find?_cons_of_neg]
    simp [h]

theorem cacheLookup_mem {entries : List (Nat × Nat)} {fid a : Nat}
    (h : cacheLookup entries fid = some a) : (fid, a) ∈ entries := by
  induction entries with
  | nil => cases h
  | cons p rest ih =>
    rw [cacheLookup_cons] at h
    by_cases hp : p.1 = fid
    · rw [if_pos hp] at h
      obtain ⟨x, y⟩ := p
      cases h
      simp only at hp
      subst hp
      exact List.mem_cons_self _ _
    · rw [if_neg hp] at h
      exact List.mem_cons_of_mem _ (ih h)

theorem cacheLookup_append_self {entries : List (Nat × Nat)} {fid a : Nat}
    (h : cacheLookup entries fid = none) :
    cacheLookup (entries ++ [(fid, a)]) fid = some a := by
  induction entries with
  | nil =>
    rw [List.nil_append, cacheLookup_cons]
    simp
  | cons p rest ih =>
    rw [cacheLookup_cons] at h
    rw [List.cons_append, cacheLookup_cons]
    by_cases hp : p.1 = fid
    · rw [if_pos hp] at h
      cases h
    · rw [if_neg hp] at h
      rw [if_neg hp]
      exact ih h

theorem cacheLookup_append_other {entries : List (Nat × Nat)}
    {fid2 a fid : Nat} (h : fid ≠ fid2) :
    cacheLookup (entries ++ [(fid2, a)]) fid = cacheLookup entries fid := by
  induction entries with
  | nil =>
    rw [List.nil_append, cacheLookup_cons, cacheLookup_nil]
    rw [if_neg (fun he => h (Eq.symm he))]
  | cons p rest ih =>
    rw [List.cons_append, cacheLookup_cons, cacheLookup_cons, ih]

theorem cacheInv_cacheInit : CacheInv cacheInit := by
  constructor
  · intro p hp
    cases hp
  · intro p hp
    cases hp

theorem cacheInv_livelocals {V : Type} (f : Frame V) (st : CacheSt)
    (hInv : CacheInv st) : CacheInv (livelocals f st).2 := by
  unfold livelocals
  cases hl : cacheLookup st.entries f.frame_id with
  | some addr => exact hInv
  | none =>
    refine ⟨?_, ?_⟩
    · intro p hp
      rcases List.mem_append.1 hp with h | h
      · exact Nat.lt_succ_of_lt (hInv.1 p h)
      · simp only [List.mem_singleton] at h
        rw [h]
        exact Nat.lt_succ_self _
    · intro p hp q hq hpq
      rcases List.mem_append.1 hp with h1 | h1 <;>
        rcases List.mem_append.1 hq with h2 | h2
      · exact hInv.2 p h1 q h2 hpq
      · exfalso
        simp only [List.mem_singleton] at h2
        have := hInv.1 p h1
        rw [hpq, h2] at this
        exact Nat.lt_irrefl _ this
      · exfalso
        simp only [List.mem_singleton] at h1
        have := hInv.1 q h2
        rw [← hpq, h1] at this
        exact Nat.lt_irrefl _ this
      · simp only [List.mem_singleton] at h1 h2
        rw [h1, h2]

theorem update_append {V : Type} (self : LiveLocals) (f : Frame V)
    (m1 m2 : List (String × V)) :
    self.update f (m1 ++ m2) = self.update (self.update f m1) m2 := by
  unfold LiveLocals.update
  exact List.foldl_append _ _ _ _

/-! ## Claim theorems -/

/-- C1: for every frame view, every name `n` declared in the
underlying frame, and every value `v`, `write(n, v)`
(`LiveLocals.__setitem__`) followed by `read(n)`
(`LiveLocals.__getitem__`) on the same view returns exactly `v`. -/
theorem claim1_write_then_read {V : Type} (f : Frame V) (k : String) (v : V)
    (hwf : f.wf) (hd : f.f_code.declared k) :
    ∃ f2 : Frame V, (LiveLocals.init f).setitem f k v = Except.ok f2 ∧
      (LiveLocals.init f).getitem f2 k = Except.ok v := by
  obtain ⟨fv, hfv⟩ := Option.isSome_iff_exists.1 (dictGet_buildVars_isSome f hd)
  refine ⟨fv.set_var f v, ?_, ?_⟩
  · unfold LiveLocals.setitem
    rw [init_vars, hfv]
  · unfold LiveLocals.getitem
    rw [init_vars, hfv]
    have hidx := dictGet_buildVars_index_lt f hfv
    have hlen : fv.index < f.slots.length := by
      unfold Frame.wf at hwf
      omega
    exact get_var_set_var_self fv f v hlen

/-- C1 witness: concrete instance on `wFrame` with name `a` and value
`7`. -/
theorem claim1_witness :
    wFrame.wf ∧ wFrame.f_code.declared "a" ∧
      ∃ f2 : Frame Nat,
        (LiveLocals.init wFrame).setitem wFrame "a" 7 = Except.ok f2 ∧
        (LiveLocals.init wFrame).getitem f2 "a" = Except.ok 7 :=
  ⟨by decide, by decide,
    claim1_write_then_read wFrame "a" 7 (by decide) (by decide)⟩

/-- C5: for a name not among the frame's declared variables, read,
write and clear all fail with `NotDeclared` (read thus never fails
`Undefined` there); read on a declared-but-unset name fails
`Undefined`. -/
theorem claim5_error_taxonomy {V : Type} (f : Frame V) :
    (∀ k : String, ¬ f.f_code.declared k →
      (LiveLocals.init f).getitem f k = Except.error Err.NotDeclared ∧
      (∀ v : V,
        (LiveLocals.init f).setitem f k v = Except.error Err.NotDeclared) ∧
      (LiveLocals.init f).delitem f k = Except.error Err.NotDeclared) ∧
    (∀ (k : String) (fv : frame_var),
      dictGet (LiveLocals.init f)._vars k = some fv →
      f.slots.getD fv.index none = none →
      (LiveLocals.init f).getitem f k = Except.error Err.Undefined) := by
  constructor
  · intro k hk
    have hn : dictGet (buildVars f) k = none := dictGet_buildVars_none f hk
    refine ⟨?_, ?_, ?_⟩
    · unfold LiveLocals.getitem
      simp only [init_vars, hn]
    · intro v
      unfold LiveLocals.setitem
      simp only [init_vars, hn]
    · unfold LiveLocals.delitem
      simp only [init_vars, hn]
  · intro k fv hfv hslot
    unfold LiveLocals.getitem
    simp only [hfv, get_var_eq_getD, hslot]

/-- C5 witness: on `wFrame`, the undeclared name `zzz` fails
`NotDeclared` for read, write and clear, and the declared-but-unset
name `b` fails `Undefined` on read. -/
theorem claim5_witness :
    (¬ wFrame.f_code.declared "zzz") ∧
    (LiveLocals.init wFrame).getitem wFrame "zzz" =
      Except.error Err.NotDeclared ∧
    (LiveLocals.init wFrame).setitem wFrame "zzz" 5 =
      Except.error Err.NotDeclared ∧
    (LiveLocals.init wFrame).delitem wFrame "zzz" =
      Except.error Err.NotDeclared ∧
    (LiveLocals.init wFrame).getitem wFrame "b" =
      Except.error Err.Undefined := by
  refine ⟨by decide, ?_, ?_, ?_, ?_⟩
  · exact ((claim5_error_taxonomy wFrame).1 "zzz" (by decide)).1
  · exact ((claim5_error_taxonomy wFrame).1 "zzz" (by decide)).2.1 5
  · exact ((claim5_error_taxonomy wFrame).1 "zzz" (by decide)).2.2
  · exact (claim5_error_taxonomy wFrame).2 "b" ⟨3, Category.Fast, 1⟩
      (by decide) (by decide)

/-- C6: for every declared name `n`, `clear(n)`
(`LiveLocals.__delitem__`) succeeds, a subsequent `read(n)` fails
`Undefined`, and after a subsequent `write(n, v)` a `read(n)` returns
`v` again. -/
theorem claim6_clear_read_write {V : Type} (f : Frame V) (k : String)
    (hwf : f.wf) (hd : f.f_code.declared k) :
    ∃ f2 : Frame V, (LiveLocals.init f).delitem f k = Except.ok f2 ∧
      (LiveLocals.init f).getitem f2 k = Except.error Err.Undefined ∧
      ∀ v : V, ∃ f3 : Frame V,
        (LiveLocals.init f).setitem f2 k v = Except.ok f3 ∧
        (LiveLocals.init f).getitem f3 k = Except.ok v := by
  obtain ⟨fv, hfv⟩ := Option.isSome_iff_exists.1 (dictGet_buildVars_isSome f hd)
  have hidx := dictGet_buildVars_index_lt f hfv
  have hlen : fv.index < f.slots.length := by
    unfold Frame.wf at hwf
    omega
  refine ⟨fv.del_var f, ?_, ?_, ?_⟩
  · unfold LiveLocals.delitem
    rw [init_vars, hfv]
  · unfold LiveLocals.getitem
    rw [init_vars, hfv]
    exact get_var_del_var_self fv f hlen
  · intro v
    refine ⟨fv.set_var (fv.del_var f) v, ?_, ?_⟩
    · unfold LiveLocals.setitem
      rw [init_vars, hfv]
    · unfold LiveLocals.getitem
      rw [init_vars, hfv]
      apply get_var_set_var_self
      rw [del_var_length]
      exact hlen

/-- C6 witness: concrete instance on `wFrame` with the cell name
`c`. -/
theorem claim6_witness :
    wFrame.wf ∧ wFrame.f_code.declared "c" ∧
      ∃ f2 : Frame Nat,
        (LiveLocals.init wFrame).delitem wFrame "c" = Except.ok f2 ∧
        (LiveLocals.init wFrame).getitem f2 "c" = Except.error Err.Undefined ∧
        ∀ v : Nat, ∃ f3 : Frame Nat,
          (LiveLocals.init wFrame).setitem f2 "c" v = Except.ok f3 ∧
          (LiveLocals.init wFrame).getitem f3 "c" = Except.ok v :=
  ⟨by decide, by decide,
    claim6_clear_read_write wFrame "c" (by decide) (by decide)⟩

/-- C3 counterexample: on `wFrame`, `setdefault` applied to the
absent name `zzz` does not fail: it returns the default and leaves
the frame untouched, although the claim says it fails with
`NotDeclared`. -/
theorem claim3_counterexample :
    (LiveLocals.init wFrame).contains "zzz" = false ∧
    (LiveLocals.init wFrame).setdefault wFrame "zzz" 7 = (7, wFrame) :=
  ⟨by decide, by decide⟩

/-- C3 (amended): `setdefault(name, default)` returns the current
value (without writing) if `name` is declared and assigned; if
declared but `Undefined` it writes the default into the frame's
storage and returns it; if `name` is absent from the view it returns
the default without writing and without failing. -/
theorem claim3_setdefault {V : Type} (f : Frame V) (k : String) (d : V)
    (hwf : f.wf) :
    (∀ (fv : frame_var) (v : V),
      dictGet (LiveLocals.init f)._vars k = some fv →
      fv.get_var f = Except.ok v →
      (LiveLocals.init f).setdefault f k d = (v, f)) ∧
    (∀ fv : frame_var, dictGet (LiveLocals.init f)._vars k = some fv →
      fv.get_var f = Except.error Err.Undefined →
      ((LiveLocals.init f).setdefault f k d).1 = d ∧
      (LiveLocals.init f).getitem ((LiveLocals.init f).setdefault f k d).2 k =
        Except.ok d) ∧
    (¬ f.f_code.declared k →
      (LiveLocals.init f).setdefault f k d = (d, f)) := by
  refine ⟨?_, ?_, ?_⟩
  · intro fv v hfv hv
    unfold LiveLocals.setdefault
    simp only [hfv, hv]
  · intro fv hfv hv
    unfold LiveLocals.setdefault
    simp only [hfv, hv]
    refine ⟨by trivial, ?_⟩
    unfold LiveLocals.getitem
    simp only [hfv]
    apply get_var_set_var_self
    have hidx := dictGet_buildVars_index_lt f hfv
    unfold Frame.wf at hwf
    omega
  · intro hk
    unfold LiveLocals.setdefault
    simp only [init_vars, dictGet_buildVars_none f hk]

/-- C3 witness: on `wFrame`, `setdefault` returns the current value
of the assigned name `a` without writing, writes the default for the
unset name `b`, and returns the default for the absent name `zzz`. -/
theorem claim3_witness :
    wFrame.wf ∧
    (LiveLocals.init wFrame).setdefault wFrame "a" 9 = (10, wFrame) ∧
    ((LiveLocals.init wFrame).setdefault wFrame "b" 9).1 = 9 ∧
    (LiveLocals.init wFrame).getitem
      ((LiveLocals.init wFrame).setdefault wFrame "b" 9).2 "b" =
      Except.ok 9 ∧
    (LiveLocals.init wFrame).setdefault wFrame "zzz" 9 = (9, wFrame) := by
  refine ⟨by decide, ?_, ?_, ?_, ?_⟩
  · exact (claim3_setdefault wFrame "a" 9 (by decide)).1 ⟨3, Category.Fast, 0⟩
      10 (by decide) (by decide)
  · exact ((claim3_setdefault wFrame "b" 9 (by decide)).2.1
      ⟨3, Category.Fast, 1⟩ (by decide) (by decide)).1
  · exact ((claim3_setdefault wFrame "b" 9 (by decide)).2.1
      ⟨3, Category.Fast, 1⟩ (by decide) (by decide)).2
  · exact (claim3_setdefault wFrame "zzz" 9 (by decide)).2.2 (by decide)

/-- C10: `get(name, default)` returns the default both when the name
is not declared in the view (never raising `NotDeclared`) and when it
is declared but unassigned. -/
theorem claim10_get_default {V : Type} (f : Frame V) (k : String) (d : V) :
    (¬ f.f_code.declared k → (LiveLocals.init f).get f k d = d) ∧
    (∀ fv : frame_var, dictGet (LiveLocals.init f)._vars k = some fv →
      fv.get_var f = Except.error Err.Undefined →
      (LiveLocals.init f).get f k d = d) := by
  constructor
  · intro hk
    unfold LiveLocals.get
    simp only [init_vars, dictGet_buildVars_none f hk]
  · intro fv hfv he
    unfold LiveLocals.get
    simp only [hfv, he]

/-- C10 witness: on `wFrame`, `get` returns the default `42` for the
absent name `zzz` and for the unset name `b`. -/
theorem claim10_witness :
    (¬ wFrame.f_code.declared "zzz" ∧
      (LiveLocals.init wFrame).get wFrame "zzz" 42 = 42) ∧
    (dictGet (LiveLocals.init wFrame)._vars "b" =
        some ⟨3, Category.Fast, 1⟩ ∧
      (LiveLocals.init wFrame).get wFrame "b" 42 = 42) :=
  ⟨⟨by decide, (claim10_get_default wFrame "zzz" 42).1 (by decide)⟩,
   ⟨by decide, (claim10_get_default wFrame "b" 42).2 ⟨3, Category.Fast, 1⟩
      (by decide) (by decide)⟩⟩

/-- C4: the view constructor (`LiveLocals.__init__`) assigns slot
indices by the unified-array convention: a Fast-segment name at
position `p` gets Fast index `p`, a Cell-segment name at position `p`
gets index `fast count + p`, and a Free-segment name at position `p`
gets index `fast count + cell count + p` (for frames whose declared
names are pairwise distinct). -/
theorem claim4_index_convention {V : Type} (f : Frame V)
    (hnd : f.f_code.nodupNames) :
    (∀ (p : Nat) (hp : p < f.f_code.co_varnames.length),
      dictGet (LiveLocals.init f)._vars (f.f_code.co_varnames.get ⟨p, hp⟩) =
        some ⟨f.frame_id, Category.Fast, p⟩) ∧
    (∀ (p : Nat) (hp : p < f.f_code.co_cellvars.length),
      dictGet (LiveLocals.init f)._vars (f.f_code.co_cellvars.get ⟨p, hp⟩) =
        some ⟨f.frame_id, Category.Cell, f.f_code.co_varnames.length + p⟩) ∧
    (∀ (p : Nat) (hp : p < f.f_code.co_freevars.length),
      dictGet (LiveLocals.init f)._vars (f.f_code.co_freevars.get ⟨p, hp⟩) =
        some ⟨f.frame_id, Category.Cell,
          f.f_code.co_varnames.length + f.f_code.co_cellvars.length + p⟩) := by
  refine ⟨?_, ?_, ?_⟩
  · intro p hp
    rw [init_vars]
    exact dictGet_buildVars_fast f hnd p hp
  · intro p hp
    rw [init_vars]
    exact dictGet_buildVars_cell f hnd p hp
  · intro p hp
    rw [init_vars]
    exact dictGet_buildVars_free f hnd p hp

/-- C4 witness: on `wFrame` (2 fast, 1 cell, 1 free), `a` gets Fast
index 0, `c` gets index 2, `d` gets index 3. -/
theorem claim4_witness :
    wFrame.f_code.nodupNames ∧
    dictGet (LiveLocals.init wFrame)._vars "a" =
      some ⟨3, Category.Fast, 0⟩ ∧
    dictGet (LiveLocals.init wFrame)._vars "c" =
      some ⟨3, Category.Cell, 2⟩ ∧
    dictGet (LiveLocals.init wFrame)._vars "d" =
      some ⟨3, Category.Cell, 3⟩ := by
  refine ⟨by decide, ?_, ?_, ?_⟩
  · exact (claim4_index_convention wFrame (by decide)).1 0 (by decide)
  · exact (claim4_index_convention wFrame (by decide)).2.1 0 (by decide)
  · exact (claim4_index_convention wFrame (by decide)).2.2 0 (by decide)

/-- C9 counterexample: the claim says the view stores no strong
handle to the frame, but on the concrete frame `cFrame9` the view's
accessor partials capture the frame: its list of strongly held frame
references is `[5]`, not `[]`. -/
theorem claim9_counterexample :
    (LiveLocals.init cFrame9).strongFrameRefs ≠ [] ∧
    (LiveLocals.init cFrame9).strongFrameRefs = [5] :=
  ⟨by decide, by decide⟩

/-- C9 (amended): the view stores the frame's identity, and each of
its accessors captures a strong reference to the observed frame (one
per declared name), so holding a view keeps the frame alive; the
cache holds the view itself only weakly. -/
theorem claim9_strong_refs {V : Type} (f : Frame V) :
    (∀ r ∈ (LiveLocals.init f).strongFrameRefs, r = f.frame_id) ∧
    ((LiveLocals.init f).strongFrameRefs.length =
      (LiveLocals.init f)._vars.length) ∧
    (f.f_code.co_varnames ≠ [] →
      (LiveLocals.init f).strongFrameRefs ≠ []) := by
  refine ⟨?_, ?_, ?_⟩
  · intro r hr
    unfold LiveLocals.strongFrameRefs at hr
    rcases List.mem_map.1 hr with ⟨⟨k, fv⟩, hm, he⟩
    rw [← he]
    rw [init_vars] at hm
    exact buildVars_frame_ref f k fv hm
  · unfold LiveLocals.strongFrameRefs
    exact List.length_map _ _
  · intro hne hrefs
    cases hv : f.f_code.co_varnames with
    | nil => exact hne hv
    | cons x rest =>
      have hd : f.f_code.declared x := Or.inl (hv ▸ List.mem_cons_self x rest)
      have hs := dictGet_buildVars_isSome f hd
      unfold LiveLocals.strongFrameRefs at hrefs
      have hv2 : (LiveLocals.init f)._vars = [] := List.map_eq_nil.1 hrefs
      rw [init_vars] at hv2
      rw [hv2] at hs
      simp [dictGet_nil] at hs

/-- C9 witness: on `cFrame9` every captured reference equals the
frame's identity and the reference list is nonempty. -/
theorem claim9_witness :
    (∀ r ∈ (LiveLocals.init cFrame9).strongFrameRefs,
      r = cFrame9.frame_id) ∧
    cFrame9.f_code.co_varnames ≠ [] ∧
    (LiveLocals.init cFrame9).strongFrameRefs ≠ [] :=
  ⟨(claim9_strong_refs cFrame9).1, by decide,
   (claim9_strong_refs cFrame9).2.2 (by decide)⟩

/-- C7: `items()` never yields a name whose slot is currently
`Undefined` (the `Undefined` failure is skipped, never propagated,
and iteration is total); `keys()` and `values()` are its
projections; and a name that becomes defined appears in a fresh call
to `items()`. -/
theorem claim7_items {V : Type} (f : Frame V) :
    (∀ (k : String) (fv : frame_var),
      dictGet (LiveLocals.init f)._vars k = some fv →
      fv.get_var f = Except.error Err.Undefined →
      k ∉ (LiveLocals.init f).keys f) ∧
    ((LiveLocals.init f).keys f =
      ((LiveLocals.init f).items f).map Prod.fst) ∧
    ((LiveLocals.init f).values f =
      ((LiveLocals.init f).items f).map Prod.snd) ∧
    (∀ (k : String) (v : V) (f2 : Frame V), f.wf →
      (LiveLocals.init f).setitem f k v = Except.ok f2 →
      (k, v) ∈ (LiveLocals.init f).items f2) := by
  refine ⟨?_, rfl, rfl, ?_⟩
  · intro k fv hfv hundef hk
    unfold LiveLocals.keys at hk
    rcases List.mem_map.1 hk with ⟨⟨k2, w⟩, hm, he⟩
    unfold LiveLocals.items at hm
    rcases List.mem_filterMap.1 hm with ⟨⟨k3, fv3⟩, hm3, hf3⟩
    cases hg : fv3.get_var f with
    | ok u =>
      rw [hg] at hf3
      simp only [Option.some.injEq, Prod.mk.injEq] at hf3
      simp only at he
      have hkk : k3 = k := by
        rw [hf3.1, he]
      rw [init_vars] at hm3 hfv
      have : fv3 = fv :=
        dictGet_unique (buildVars_keys_nodup f) (hkk ▸ hm3) hfv
      rw [this, hundef] at hg
      cases hg
    | error e =>
      rw [hg] at hf3
      cases hf3
  · intro k v f2 hwf hset
    unfold LiveLocals.setitem at hset
    cases hfv : dictGet (LiveLocals.init f)._vars k with
    | none =>
      rw [hfv] at hset
      cases hset
    | some fv =>
      rw [hfv] at hset
      simp only at hset
      have hf2 : f2 = fv.set_var f v := (Except.ok.inj hset).symm
      subst hf2
      have hidx := dictGet_buildVars_index_lt f hfv
      have hlen : fv.index < f.slots.length := by
        unfold Frame.wf at hwf
        omega
      unfold LiveLocals.items
      apply List.mem_filterMap.2
      refine ⟨(k, fv), dictGet_mem hfv, ?_⟩
      rw [get_var_set_var_self fv f v hlen]

/-- C7 witness: on `wFrame` the unset name `b` does not appear in
`keys()`, and after writing `42` to `b` the fresh `items()` contains
`(b, 42)`. -/
theorem claim7_witness :
    ("b" ∉ (LiveLocals.init wFrame).keys wFrame) ∧
    wFrame.wf ∧
    ("b", 42) ∈ (LiveLocals.init wFrame).items
      ((⟨3, Category.Fast, 1⟩ : frame_var).set_var wFrame 42) :=
  ⟨(claim7_items wFrame).1 "b" ⟨3, Category.Fast, 1⟩ (by decide) rfl,
   by decide,
   (claim7_items wFrame).2.2.2 "b" 42
     ((⟨3, Category.Fast, 1⟩ : frame_var).set_var wFrame 42)
     (by decide) rfl⟩

/-- C8: for a mapping with distinct keys, `update(m)` writes the
mapped value into the slot of every key of `m` that is declared in
the view, leaves every name that is not a key of `m` unchanged, and
never fails — keys not declared in the view are silently ignored. -/
theorem claim8_update {V : Type} (f : Frame V) (m : List (String × V))
    (hwf : f.wf) (hnd : (m.map Prod.fst).Nodup) :
    (∀ (k : String) (v : V), (k, v) ∈ m → f.f_code.declared k →
      (LiveLocals.init f).getitem ((LiveLocals.init f).update f m) k =
        Except.ok v) ∧
    (∀ k : String, k ∉ m.map Prod.fst →
      (LiveLocals.init f).getitem ((LiveLocals.init f).update f m) k =
        (LiveLocals.init f).getitem f k) := by
  constructor
  · intro k v hm hd
    obtain ⟨fv, hfv⟩ :=
      Option.isSome_iff_exists.1 (dictGet_buildVars_isSome f hd)
    have hfv2 : dictGet (LiveLocals.init f)._vars k = some fv := hfv
    have hidx := dictGet_buildVars_index_lt f hfv
    rcases List.append_of_mem hm with ⟨m1, m2, hsplit⟩
    subst hsplit
    have hknm2 : k ∉ m2.map Prod.fst := by
      rw [List.map_append, List.map_cons] at hnd
      exact (List.nodup_cons.1 (List.nodup_append.1 hnd).2.1).1
    rw [update_append]
    generalize hf1 : (LiveLocals.init f).update f m1 = f1
    have hlen1 : f1.slots.length = f.slots.length := by
      rw [← hf1]
      exact update_length _ _ _
    have hlt : fv.index < f1.slots.length := by
      rw [hlen1]
      unfold Frame.wf at hwf
      omega
    have hne : ∀ kv ∈ m2, ∀ fv2,
        dictGet (LiveLocals.init f)._vars kv.1 = some fv2 →
        fv2.index ≠ fv.index := by
      intro kv hkv fv2 hfv4 heq
      have hkk : kv.1 = k := buildVars_index_inj f hfv4 hfv heq
      exact hknm2 (hkk ▸ List.mem_map.2 ⟨kv, hkv, rfl⟩)
    rw [update_cons]
    simp only [hfv2]
    unfold LiveLocals.getitem
    simp only [hfv2]
    rw [get_var_eq_getD,
      update_getD_ne (LiveLocals.init f) m2 (fv.set_var f1 v) fv.index hne,
      set_var_getD_self fv f1 v hlt]
  · intro k hk
    unfold LiveLocals.getitem
    cases hfv : dictGet (LiveLocals.init f)._vars k with
    | none => rfl
    | some fv =>
      show fv.get_var ((LiveLocals.init f).update f m) = fv.get_var f
      apply get_var_congr
      apply update_getD_ne
      intro kv hkv fv2 hfv4 heq
      have hkk : kv.1 = k := buildVars_index_inj f hfv4 hfv heq
      exact hk (hkk ▸ List.mem_map.2 ⟨kv, hkv, rfl⟩)

/-- C8 witness: on `wFrame`, `update` with mapping
`[(a, 77), (qq, 1)]` writes `a`, ignores the undeclared `qq`, and
leaves `b` unchanged. -/
theorem claim8_witness :
    wFrame.wf ∧ ([("a", 77), ("qq", 1)].map Prod.fst).Nodup ∧
    ("a", 77) ∈ [("a", 77), ("qq", 1)] ∧ wFrame.f_code.declared "a" ∧
    (LiveLocals.init wFrame).getitem
      ((LiveLocals.init wFrame).update wFrame [("a", 77), ("qq", 1)]) "a" =
      Except.ok 77 ∧
    ("b" ∉ [("a", 77), ("qq", 1)].map Prod.fst) ∧
    (LiveLocals.init wFrame).getitem
      ((LiveLocals.init wFrame).update wFrame [("a", 77), ("qq", 1)]) "b" =
      (LiveLocals.init wFrame).getitem wFrame "b" := by
  refine ⟨by decide, by decide, by decide, by decide, ?_, by decide, ?_⟩
  · exact (claim8_update wFrame [("a", 77), ("qq", 1)] (by decide)
      (by decide)).1 "a" 77 (by decide) (by decide)
  · exact (claim8_update wFrame [("a", 77), ("qq", 1)] (by decide)
      (by decide)).2 "b" (by decide)

/-- C2: under the interned (default) policy, two calls of
`livelocals` on the same frame return the identical view (same
address), and a call on a frame with a different identity never
returns that address; the cache invariant is preserved.  Modelled
with no garbage collection: every weak cache entry is still live. -/
theorem claim2_interned {V : Type} (f g : Frame V) (st : CacheSt)
    (hInv : CacheInv st) (hne : g.frame_id ≠ f.frame_id) :
    (livelocals f (livelocals f st).2).1 = (livelocals f st).1 ∧
    (livelocals g (livelocals f st).2).1 ≠ (livelocals f st).1 ∧
    CacheInv (livelocals f st).2 := by
  refine ⟨?_, ?_, cacheInv_livelocals f st hInv⟩
  · cases hl : cacheLookup st.entries f.frame_id with
    | some a => simp only [livelocals, hl]
    | none =>
      simp only [livelocals, hl]
      rw [cacheLookup_append_self hl]
  · cases hl : cacheLookup st.entries f.frame_id with
    | some a =>
      simp only [livelocals, hl]
      cases hg : cacheLookup st.entries g.frame_id with
      | some b =>
        simp only [hg]
        intro hba
        exact hne (hInv.2 _ (cacheLookup_mem hg) _ (cacheLookup_mem hl)
          (by rw [hba]))
      | none =>
        simp only [hg]
        intro hba
        have hlt := hInv.1 _ (cacheLookup_mem hl)
        simp only at hlt
        omega
    | none =>
      simp only [livelocals, hl]
      cases hg : cacheLookup (st.entries ++ [(f.frame_id, st.nextAddr)])
          g.frame_id with
      | some b =>
        simp only [hg]
        intro hba
        rcases List.mem_append.1 (cacheLookup_mem hg) with h | h
        · have hlt := hInv.1 _ h
          simp only at hlt
          omega
        · simp only [List.mem_singleton] at h
          exact hne (congrArg Prod.fst h)
      | none =>
        simp only [hg]
        omega

/-- C2 witness: starting from the empty cache, two calls on `wFrame`
return the same address and a call on `gFrame` returns a different
one. -/
theorem claim2_witness :
    CacheInv cacheInit ∧ gFrame.frame_id ≠ wFrame.frame_id ∧
    ((livelocals wFrame (livelocals wFrame cacheInit).2).1 =
        (livelocals wFrame cacheInit).1 ∧
      (livelocals gFrame (livelocals wFrame cacheInit).2).1 ≠
        (livelocals wFrame cacheInit).1 ∧
      CacheInv (livelocals wFrame cacheInit).2) :=
  ⟨by decide, by decide,
    claim2_interned wFrame gFrame cacheInit (by decide) (by decide)⟩
